import Mathlib

/-!
Verification of the core components of the `expos` repository: the
`range` crate (`RangeSet` of inclusive `u64` intervals), the `uefi`
crate's status-code decoding and ACPI table validation, and the
`ticket_mutex` crate.

Machine integers (`u64` / `usize` on x86_64) are modelled as `Nat`
together with explicit reduction modulo `2 ^ 64` at the arithmetic
operations where the Rust release-profile semantics wraps
(`end + 1`, `start - 1`, counter increments).  Comparisons on values
below `2 ^ 64` coincide with the machine comparisons.
-/

namespace Expos

/-- Modulus of 64-bit machine words (`u64`, and `usize` on x86_64). -/
def U64 : Nat := 2 ^ 64

/-- Wrapping `+ 1` on a 64-bit word (Rust release-profile overflow). -/
def wadd1 (n : Nat) : Nat := (n + 1) % U64

/-- Wrapping `- 1` on a 64-bit word (Rust release-profile underflow). -/
def wsub1 (n : Nat) : Nat := (n + U64 - 1) % U64

/-! ## The `range` crate (src/range/src/lib.rs)

A `RangeSet` is a fixed-capacity (128) array of `Range` plus a
used-count `in_use`.  The model keeps the used prefix
`ranges[..in_use]` as a `List Range`; its length is the used count.
Cells beyond `in_use` are never read by the code, and no code path
writes any cell before returning an error, so the prefix list is a
faithful state. -/

/-- `range::Range`: an inclusive interval of `u64`.  The Rust field
`end` is spelled `stop` here (`end` is a Lean keyword). -/
structure Range where
  start : Nat
  stop : Nat
  deriving DecidableEq

/-- `range::Error`. -/
inductive RangeError where
  | InvalidBoundaries
  | FullRangeSet
  deriving DecidableEq

/-- `Range::new`: requires `start <= end`. -/
def Range.new (start stop : Nat) : Except RangeError Range :=
  if start ≤ stop then .ok ⟨start, stop⟩ else .error .InvalidBoundaries

/-- `Range::contains_point`. -/
def Range.contains_point (r : Range) (point : Nat) : Prop :=
  r.start ≤ point ∧ point ≤ r.stop

instance (r : Range) (p : Nat) : Decidable (r.contains_point p) :=
  inferInstanceAs (Decidable (_ ≤ _ ∧ _ ≤ _))

/-- `Range::contains_range`. -/
def Range.contains_range (r other : Range) : Prop :=
  r.contains_point other.start ∧ r.contains_point other.stop

instance (r other : Range) : Decidable (r.contains_range other) :=
  inferInstanceAs (Decidable (_ ∧ _))

/-- `Range::overlaps`. -/
def Range.overlaps (r other : Range) : Prop :=
  r.contains_point other.start ∨ r.contains_point other.stop ∨
    other.contains_point r.start ∨ other.contains_point r.stop

instance (r other : Range) : Decidable (r.overlaps other) :=
  inferInstanceAs (Decidable (_ ∨ _ ∨ _ ∨ _))

/-- `RANGE_SET_LEN`. -/
def RANGE_SET_LEN : Nat := 128

namespace RangeSet

/-- The scan loop of `RangeSet::sort_insert` (lib.rs:111-124): walk the
used entries in order; on the first entry with the same start point,
update its end to the max of the two ends (the function then returns
`Ok` with no capacity check); stop at the first entry whose start
exceeds the new range's start.  Returns `some updated` when the
same-start entry was hit, `none` when the loop selected an insertion
index instead. -/
def sort_insert_scan : List Range → Range → Option (List Range)
  | [], _ => none
  | x :: xs, range =>
    if range.start = x.start then some (⟨x.start, max range.stop x.stop⟩ :: xs)
    else if range.start < x.start then none
    else (sort_insert_scan xs range).map (x :: ·)

/-- The insertion step of `RangeSet::sort_insert` (lib.rs:132-136):
shift the entries from the selected index one slot forward and place
the new range there.  The selected index is the first position whose
start exceeds `range.start` (the scan guaranteed no same-start entry
occurs before it). -/
def sort_insert_place : List Range → Range → List Range
  | [], range => [range]
  | x :: xs, range =>
    if range.start < x.start then range :: x :: xs
    else x :: sort_insert_place xs range

/-- `RangeSet::sort_insert` (lib.rs:111-139).  The pair holds the
resulting used prefix and the error, if any; the capacity check
(lib.rs:127-129) happens before any mutation, so the error branch
carries the list unchanged, exactly as the Rust does. -/
def sort_insert (l : List Range) (range : Range) : List Range × Option RangeError :=
  match sort_insert_scan l range with
  | some l2 => (l2, none)
  | none =>
    if RANGE_SET_LEN ≤ l.length then (l, some .FullRangeSet)
    else (sort_insert_place l range, none)

/-- The body of `RangeSet::merge` (lib.rs:145-173) with the current
entry `x` and the remaining entries as arguments: while the next entry
`y` is contiguous or overlapping (`y.start <= x.end + 1`), absorb it
(taking `y.end` when `y` contains `x.end + 1`) and drop it; otherwise
emit `x` and advance.  `end + 1` is the wrapping `u64` addition. -/
def mergeAux (x : Range) : List Range → List Range
  | [] => [x]
  | y :: rest =>
    if wadd1 x.stop < y.start then x :: mergeAux y rest
    else mergeAux (if y.contains_point (wadd1 x.stop) then ⟨x.start, y.stop⟩ else x) rest

/-- `RangeSet::merge` (lib.rs:145-173).  The Rust loop runs over
`in_use >= 1` entries (it is only invoked right after a successful
`sort_insert`); the empty case here is unreachable from `insert`. -/
def merge : List Range → List Range
  | [] => []
  | x :: xs => mergeAux x xs

/-- `RangeSet::insert` (lib.rs:177-181): `sort_insert` then `merge`.
On a `sort_insert` error the merge sweep does not run and the state is
returned as `sort_insert` left it. -/
def insert (l : List Range) (range : Range) : List Range × Option RangeError :=
  match sort_insert l range with
  | (l2, none) => (merge l2, none)
  | (l2, some e) => (l2, some e)

/-- The loop of `RangeSet::remove` (lib.rs:185-257).  `pre` counts the
entries already passed over (kept in place before position `i`), so
`pre + (x :: xs).length` is the current `in_use` used by the capacity
check of the split case (lib.rs:228-230).  The pair carries the state
as mutated so far, so an error surfaces exactly the partial mutation
the Rust code would leave behind. -/
def removeLoop (range : Range) : Nat → List Range → List Range × Option RangeError
  | _, [] => ([], none)
  | pre, x :: xs =>
    -- lib.rs:190-192: sortedness early exit.
    if range.stop < x.start then (x :: xs, none)
    -- lib.rs:195-198: disjoint entry, advance.
    else if ¬ x.overlaps range then
      let res := removeLoop range (pre + 1) xs
      (x :: res.1, res.2)
    else if x.contains_range range then
      -- lib.rs:202-206: exact match, delete the entry.
      if x = range then (xs, none)
      -- lib.rs:207-211: shared start point, move the start forward.
      else if x.start = range.start then (⟨wadd1 range.stop, x.stop⟩ :: xs, none)
      -- lib.rs:212-216: shared end point, move the end backward.
      else if x.stop = range.stop then (⟨x.start, wsub1 range.start⟩ :: xs, none)
      -- lib.rs:217-243: strict interior, split in two.
      else if RANGE_SET_LEN ≤ pre + (x :: xs).length then (x :: xs, some .FullRangeSet)
      else match Range.new x.start (wsub1 range.start) with
        | .error e => (x :: xs, some e)
        | .ok new_range => (new_range :: ⟨wadd1 range.stop, x.stop⟩ :: xs, none)
    -- lib.rs:246-249: entry inside the removed range, delete it and
    -- re-examine the slot (the next entry shifts into it).
    else if range.contains_range x then removeLoop range pre xs
    -- lib.rs:250-253: entry holds the removal start, truncate its end.
    else if x.contains_point range.start then
      let res := removeLoop range (pre + 1) xs
      (⟨x.start, wsub1 range.start⟩ :: res.1, res.2)
    -- lib.rs:254-257: entry holds the removal end, truncate its start.
    else
      let res := removeLoop range (pre + 1) xs
      (⟨wadd1 range.stop, x.stop⟩ :: res.1, res.2)

/-- `RangeSet::remove` (lib.rs:185-257). -/
def remove (l : List Range) (range : Range) : List Range × Option RangeError :=
  removeLoop range 0 l

/-- A sequence of `insert` calls starting from state `l`; the callers
stop at the first error, which is returned with the state as the
failing `insert` left it. -/
def insertAllFrom (l : List Range) : List Range → List Range × Option RangeError
  | [] => (l, none)
  | r :: rs =>
    match insert l r with
    | (l2, none) => insertAllFrom l2 rs
    | (l2, some e) => (l2, some e)

/-- A sequence of `insert` calls starting from `RangeSet::new()`. -/
def insertAll (rs : List Range) : List Range × Option RangeError :=
  insertAllFrom [] rs

end RangeSet

/-! ## The `uefi` crate: status-code decoding (src/uefi/src/lib.rs)

`EFI_STATUS` is a `usize`; on the x86_64 target `usize::BITS = 64`,
so the top bit is bit 63 and `usize::MAX >> 1 = 2 ^ 63 - 1`. -/

/-- `uefi::Error` (lib.rs:16-48). -/
inductive UefiError where
  | InvalidSignature
  | InvalidCheckSum
  | InvalidRevision
  | InvalidStatusConversion
  | InvalidAddressSize
  | InvalidAcpiData
  | BufferTooSmall
  | NotFound
  deriving DecidableEq

/-- `uefi::StatusWarning` (lib.rs:61-91). -/
inductive StatusWarning where
  | UnknownGlyph
  | DeleteFailure
  | WriteFailure
  | BufferTooSmall
  | StaleData
  | FileSystem
  | ResetRequired
  | Unknown (code : Nat)
  deriving DecidableEq

/-- `uefi::StatusError` (lib.rs:121-230). -/
inductive StatusError where
  | LoadError
  | InvalidParameter
  | Unsupported
  | BadBufferSize
  | BufferTooSmall
  | NotReady
  | DeviceError
  | WriteProtected
  | OutOfResources
  | VolumeCorrupted
  | VolumeFull
  | NoMedia
  | MediaChanged
  | NotFound
  | AccessDenied
  | NoResponse
  | NoMapping
  | Timeout
  | NotStarted
  | AlreadyStarted
  | Aborted
  | IcmpError
  | TftpError
  | ProtocolError
  | IncompatibleVersion
  | SecurityViolation
  | CrcError
  | EndOfMedia
  | EndOfFile
  | InvalidLanguage
  | CompromisedData
  | IpAddressConflict
  | HttpError
  | Unknown (code : Nat)
  deriving DecidableEq

/-- `impl TryFrom<EfiStatus> for StatusWarning` (lib.rs:93-114): code 0
and codes with the top bit set are rejected; 1-7 map to named kinds,
anything else is `Unknown` of the full word.  The Rust `match` on the
word is rendered as the equivalent chain of equality tests. -/
def StatusWarning.tryFromEfi (w : Nat) : Except UefiError StatusWarning :=
  if w = 0 ∨ w >>> 63 = 1 then .error .InvalidStatusConversion
  else .ok <|
    if w = 1 then .UnknownGlyph
    else if w = 2 then .DeleteFailure
    else if w = 3 then .WriteFailure
    else if w = 4 then .BufferTooSmall
    else if w = 5 then .StaleData
    else if w = 6 then .FileSystem
    else if w = 7 then .ResetRequired
    else .Unknown w

/-- The `match` of `impl TryFrom<EfiStatus> for StatusError`
(lib.rs:242-279): the scrutinee is `status.0 & (usize::MAX >> 1)`
(argument `c`), but the fallback arm carries `status.0` itself, the
full word (argument `w`).  Codes 29 and 30 have no arm and fall to the
fallback. -/
def StatusError.fromCode (c w : Nat) : StatusError :=
  if c = 1 then .LoadError
  else if c = 2 then .InvalidParameter
  else if c = 3 then .Unsupported
  else if c = 4 then .BadBufferSize
  else if c = 5 then .BufferTooSmall
  else if c = 6 then .NotReady
  else if c = 7 then .DeviceError
  else if c = 8 then .WriteProtected
  else if c = 9 then .OutOfResources
  else if c = 10 then .VolumeCorrupted
  else if c = 11 then .VolumeFull
  else if c = 12 then .NoMedia
  else if c = 13 then .MediaChanged
  else if c = 14 then .NotFound
  else if c = 15 then .AccessDenied
  else if c = 16 then .NoResponse
  else if c = 17 then .NoMapping
  else if c = 18 then .Timeout
  else if c = 19 then .NotStarted
  else if c = 20 then .AlreadyStarted
  else if c = 21 then .Aborted
  else if c = 22 then .IcmpError
  else if c = 23 then .TftpError
  else if c = 24 then .ProtocolError
  else if c = 25 then .IncompatibleVersion
  else if c = 26 then .SecurityViolation
  else if c = 27 then .CrcError
  else if c = 28 then .EndOfMedia
  else if c = 31 then .EndOfFile
  else if c = 32 then .InvalidLanguage
  else if c = 33 then .CompromisedData
  else if c = 34 then .IpAddressConflict
  else if c = 35 then .HttpError
  else .Unknown w

/-- `impl TryFrom<EfiStatus> for StatusError` (lib.rs:233-282): code 0
and codes with the top bit clear are rejected. -/
def StatusError.tryFromEfi (w : Nat) : Except UefiError StatusError :=
  if w = 0 ∨ w >>> 63 = 0 then .error .InvalidStatusConversion
  else .ok (StatusError.fromCode (w &&& (2 ^ 63 - 1)) w)

/-- `uefi::Status` (lib.rs:287-297). -/
inductive Status where
  | Success
  | Warning (w : StatusWarning)
  | Error (e : StatusError)
  deriving DecidableEq

/-- `impl From<EfiStatus> for Status` (lib.rs:302-312).  The Rust code
calls `.unwrap()` on the two fallible conversions; `none` models the
panic that an `Err` there would cause. -/
def Status.fromEfi (w : Nat) : Option Status :=
  if w = 0 then some .Success
  else if w >>> 63 = 0 then (StatusWarning.tryFromEfi w).toOption.map .Warning
  else (StatusError.tryFromEfi w).toOption.map .Error

/-! ## The `uefi` crate: ACPI tables (src/uefi/src/acpi.rs)

Firmware memory is modelled as a `List Nat` of bytes starting at the
pointer handed to the parser; reads beyond the provided bytes yield 0
(the Rust would read whatever is in memory there). -/

/-- Byte fetch from modelled memory. -/
def byteAt (mem : List Nat) (i : Nat) : Nat := mem.getD i 0

/-- `utils::add_bytes` (utils.rs:45-52): the wrapping `u8` sum of a
byte buffer. -/
def addBytes (l : List Nat) : Nat := l.foldl (fun acc b => (acc + b) % 256) 0

/-- Little-endian `u32` fetch at offset `i`. -/
def u32At (mem : List Nat) (i : Nat) : Nat :=
  byteAt mem i + 256 * byteAt mem (i + 1) + 256 ^ 2 * byteAt mem (i + 2) +
    256 ^ 3 * byteAt mem (i + 3)

/-- `ACPI_RSDP_SIGNATURE`: the bytes of `RSD PTR `. -/
def ACPI_RSDP_SIGNATURE : List Nat := [82, 83, 68, 32, 80, 84, 82, 32]

/-- The `revision` field of the packed `AcpiRsdp20` struct
(acpi.rs:17-28): byte offset 15 (signature 8, checksum 1, oem_id 6). -/
def rsdpRevision (mem : List Nat) : Nat := byteAt mem 15

/-- The `length` field of `AcpiRsdp20`: little-endian `u32` at byte
offset 20 (after `rsdt_addr`). -/
def rsdpLength (mem : List Nat) : Nat := u32At mem 20

/-- `Rsdp20::new` (acpi.rs:48-72): read the 36-byte packed struct,
check its signature, then its revision (`>= 2`), then the byte-sum
checksum over `length` bytes of the struct copy.  The returned value
is the struct's bytes.  (For a declared length beyond the 36-byte
struct the Rust reads undefined stack bytes; the model reads the
provided memory, which is only exercised with lengths up to 36.) -/
def Rsdp20.new (mem : List Nat) : Except UefiError (List Nat) :=
  if mem.take 8 ≠ ACPI_RSDP_SIGNATURE then .error .InvalidSignature
  else if rsdpRevision mem < 2 then .error .InvalidRevision
  else if addBytes ((mem.take 36).take (rsdpLength mem)) ≠ 0 then .error .InvalidCheckSum
  else .ok (mem.take 36)

/-- The signature bytes of the MADT, `APIC` (acpi.rs:94). -/
def ACPI_MADT_SIGNATURE : List Nat := [65, 80, 73, 67]

/-- `ACPI_MADT_ENTRIES_LEN` (acpi.rs:219). -/
def ACPI_MADT_ENTRIES_LEN : Nat := 256

/-- The `length` field of the packed `AcpiSdtHeader` (acpi.rs:103-114):
little-endian `u32` at byte offset 4. -/
def sdtLength (mem : List Nat) : Nat := u32At mem 4

/-- `MadtLapic` (acpi.rs:240-245). -/
structure MadtLapic where
  proc_uid : Nat
  apic_id : Nat
  flags : Nat
  deriving DecidableEq

/-- Read the `AcpiMadtLapic` record (acpi.rs:232-238) starting at
offset `o`: `{type: u8, length: u8, proc_uid: u8, apic_id: u8,
flags: u32}`, keeping the fields `Madt::new` copies out. -/
def lapicAt (mem : List Nat) (o : Nat) : MadtLapic :=
  ⟨byteAt mem (o + 2), byteAt mem (o + 3), u32At mem (o + 4)⟩

/-- The sub-record walk of `Madt::new` (acpi.rs:305-330): starting
after the 36-byte SDT header and the 8-byte `AcpiMadtFields`, read
records `{type, length, ...}` while `ptr < end` where `end` is the
declared header length; type-0 records are appended (capacity 256,
exceeding it returns `BufferTooSmall`); the pointer advances by each
record's own length byte.  The walk is given as fuel-indexed
recursion; `none` means the fuel ran out, which happens exactly when
the Rust loop has not finished within that many iterations. -/
def madtWalk (mem : List Nat) : Nat → Nat → List MadtLapic → Option (Except UefiError (List MadtLapic))
  | 0, _, _ => none
  | fuel + 1, off, acc =>
    if off < sdtLength mem then
      if byteAt mem off = 0 then
        if ACPI_MADT_ENTRIES_LEN ≤ acc.length then some (.error .BufferTooSmall)
        else madtWalk mem fuel (off + byteAt mem (off + 1)) (acc ++ [lapicAt mem off])
      else madtWalk mem fuel (off + byteAt mem (off + 1)) acc
    else some (.ok acc)

/-- The record start offsets the walk of `Madt::new` visits, with the
same fuel discipline as `madtWalk`. -/
def madtOffsets (mem : List Nat) : Nat → Nat → Option (List Nat)
  | 0, _ => none
  | fuel + 1, off =>
    if off < sdtLength mem then
      (madtOffsets mem fuel (off + byteAt mem (off + 1))).map (off :: ·)
    else some []

/-- Fuel that bounds the iteration count of a walk that advances by at
least one byte per record until the declared length is reached. -/
def madtFuel (mem : List Nat) : Nat := sdtLength mem + 1

/-- The record start offsets the walk of `Madt::new` can reach: the
first record sits at offset 44, and from a record inside the declared
length the walk moves ahead by that record's own length byte. -/
inductive recordStart (mem : List Nat) : Nat → Prop
  | base : recordStart mem 44
  | step {o : Nat} : recordStart mem o → o < sdtLength mem →
      recordStart mem (o + byteAt mem (o + 1))

/-- `Madt::new` (acpi.rs:292-338): `AcpiSdtHeader::new` checks the
`APIC` signature and the byte-sum checksum over the declared length
(acpi.rs:118-140), then the record walk runs from offset
36 + 8 = 44.  `none` means the walk did not finish within
`madtFuel mem` iterations, one per byte of the declared length. -/
def Madt.new (mem : List Nat) : Option (Except UefiError (List MadtLapic)) :=
  if mem.take 4 ≠ ACPI_MADT_SIGNATURE then some (.error .InvalidSignature)
  else if addBytes (mem.take (sdtLength mem)) ≠ 0 then some (.error .InvalidCheckSum)
  else madtWalk mem (madtFuel mem) 44 []

/-! ## The `ticket_mutex` crate (src/ticket_mutex/src/lib.rs)

Sequential use only touches the two `AtomicUsize` counters; the
protected value is irrelevant to the claim and is omitted.  `usize`
arithmetic wraps modulo `2 ^ 64` (`fetch_add` is wrapping). -/

/-- The counters of a `TicketMutex`. -/
structure TicketMutex where
  next_ticket : Nat
  now_serving : Nat
  deriving DecidableEq

/-- `TicketMutex::new` (lib.rs:30-36). -/
def TicketMutex.new : TicketMutex := ⟨0, 0⟩

/-- `TicketMutex::lock` (lib.rs:40-50): `fetch_add(1)` on
`next_ticket` returns the pre-increment value as the caller's ticket;
the call then spins until `now_serving` equals that ticket. -/
def TicketMutex.lock (m : TicketMutex) : Nat × TicketMutex :=
  (m.next_ticket, ⟨(m.next_ticket + 1) % U64, m.now_serving⟩)

/-- The spin condition of `TicketMutex::lock` (lib.rs:46-48): the call
returns (the lock is granted) exactly when `now_serving` holds the
caller's ticket. -/
def TicketMutex.granted (m : TicketMutex) (ticket : Nat) : Prop :=
  m.now_serving = ticket

/-- `Drop for TicketMutexGuard` (lib.rs:95-100): `fetch_add(1)` on
`now_serving`. -/
def TicketMutex.unlock (m : TicketMutex) : TicketMutex :=
  ⟨m.next_ticket, (m.now_serving + 1) % U64⟩

/-- `n` completed sequential lock/guard-drop cycles starting from
`TicketMutex::new()`. -/
def cycles : Nat → TicketMutex
  | 0 => TicketMutex.new
  | n + 1 => ((cycles n).lock).2.unlock

instance (m : TicketMutex) (t : Nat) : Decidable (m.granted t) :=
  inferInstanceAs (Decidable (_ = _))

/-! ## Predicates used by the claims -/

/-- A well-formed range: the `Range::new` boundary invariant. -/
def Range.wf (r : Range) : Prop := r.start ≤ r.stop

instance (r : Range) : Decidable r.wf := inferInstanceAs (Decidable (_ ≤ _))

/-- A range whose `end + 1` does not wrap on `u64`. -/
def Range.noWrap (r : Range) : Prop := r.stop + 1 < U64

instance (r : Range) : Decidable r.noWrap := inferInstanceAs (Decidable (_ < _))

/-- Entries pairwise sorted and disjoint (adjacent touching allowed):
the invariant `remove` needs of the used prefix. -/
def sortedDisjoint (l : List Range) : Prop :=
  List.Pairwise (fun a b => a.stop < b.start) l

instance (l : List Range) : Decidable (sortedDisjoint l) :=
  inferInstanceAs (Decidable (List.Pairwise _ _))

/-- Consecutive entries separated by a gap of at least one point:
`end + 1 < next.start`, the full `RangeSet` invariant of the spec. -/
def gapped (l : List Range) : Prop :=
  List.Chain' (fun a b => a.stop + 1 < b.start) l

/-- A directly computable decision procedure for `gapped`. -/
def decGapped : ∀ l : List Range, Decidable (gapped l)
  | [] => .isTrue List.chain'_nil
  | [x] => .isTrue (List.chain'_singleton x)
  | x :: y :: xs =>
    match Nat.decLt (x.stop + 1) y.start, decGapped (y :: xs) with
    | .isTrue h1, .isTrue h2 => .isTrue (List.chain'_cons.mpr ⟨h1, h2⟩)
    | .isFalse h1, _ => .isFalse (fun hc => h1 (List.chain'_cons.mp hc).1)
    | _, .isFalse h2 => .isFalse (fun hc => h2 (List.chain'_cons.mp hc).2)

instance (l : List Range) : Decidable (gapped l) := decGapped l

/-- Entries strictly ascending by start point. -/
def sortedStarts (l : List Range) : Prop :=
  List.Chain' (fun a b => a.start < b.start) l

/-- A directly computable decision procedure for `sortedStarts`. -/
def decSortedStarts : ∀ l : List Range, Decidable (sortedStarts l)
  | [] => .isTrue List.chain'_nil
  | [x] => .isTrue (List.chain'_singleton x)
  | x :: y :: xs =>
    match Nat.decLt x.start y.start, decSortedStarts (y :: xs) with
    | .isTrue h1, .isTrue h2 => .isTrue (List.chain'_cons.mpr ⟨h1, h2⟩)
    | .isFalse h1, _ => .isFalse (fun hc => h1 (List.chain'_cons.mp hc).1)
    | _, .isFalse h2 => .isFalse (fun hc => h2 (List.chain'_cons.mp hc).2)

instance (l : List Range) : Decidable (sortedStarts l) := decSortedStarts l

/-- Every entry well formed and wrap free. -/
def allOk (l : List Range) : Prop := ∀ r ∈ l, r.wf ∧ r.noWrap

instance (l : List Range) : Decidable (allOk l) :=
  inferInstanceAs (Decidable (∀ r ∈ l, _ ∧ _))

/-- `e` covers `r`: every point of `r` lies in `e`. -/
def covers (e r : Range) : Prop := e.start ≤ r.start ∧ r.stop ≤ e.stop

/-! ## Status decoding written from the amended claim text

The named tables are keyed by the code value; the fallback code kept
inside `Unknown` is the full machine word (for errors this is the word
with the top bit still set, which is where the original claim text and
the code part ways). -/

/-- The named warning kinds for codes 1-7. -/
def namedWarningSpec : Nat → StatusWarning
  | 1 => .UnknownGlyph
  | 2 => .DeleteFailure
  | 3 => .WriteFailure
  | 4 => .BufferTooSmall
  | 5 => .StaleData
  | 6 => .FileSystem
  | _ => .ResetRequired

/-- The named error kinds for codes 1-35 other than the gaps 29, 30. -/
def namedErrorSpec : Nat → StatusError
  | 1 => .LoadError
  | 2 => .InvalidParameter
  | 3 => .Unsupported
  | 4 => .BadBufferSize
  | 5 => .BufferTooSmall
  | 6 => .NotReady
  | 7 => .DeviceError
  | 8 => .WriteProtected
  | 9 => .OutOfResources
  | 10 => .VolumeCorrupted
  | 11 => .VolumeFull
  | 12 => .NoMedia
  | 13 => .MediaChanged
  | 14 => .NotFound
  | 15 => .AccessDenied
  | 16 => .NoResponse
  | 17 => .NoMapping
  | 18 => .Timeout
  | 19 => .NotStarted
  | 20 => .AlreadyStarted
  | 21 => .Aborted
  | 22 => .IcmpError
  | 23 => .TftpError
  | 24 => .ProtocolError
  | 25 => .IncompatibleVersion
  | 26 => .SecurityViolation
  | 27 => .CrcError
  | 28 => .EndOfMedia
  | 31 => .EndOfFile
  | 32 => .InvalidLanguage
  | 33 => .CompromisedData
  | 34 => .IpAddressConflict
  | _ => .HttpError

/-- The decode rule as the amended claim states it: word 0 is Success;
top bit clear is a Warning, named for codes 1-7, else `Unknown` of the
full word; top bit set is an Error, named for the code (the word with
the top bit cleared) when it is 1-35 and not one of the gaps 29, 30,
else `Unknown` of the full word (top bit included). -/
def statusDecodeSpec (w : Nat) : Status :=
  if w = 0 then .Success
  else if w >>> 63 = 0 then
    .Warning (if 1 ≤ w ∧ w ≤ 7 then namedWarningSpec w else .Unknown w)
  else
    .Error
      (if 1 ≤ w &&& (2 ^ 63 - 1) ∧ w &&& (2 ^ 63 - 1) ≤ 35 ∧
          w &&& (2 ^ 63 - 1) ≠ 29 ∧ w &&& (2 ^ 63 - 1) ≠ 30
       then namedErrorSpec (w &&& (2 ^ 63 - 1))
       else .Unknown w)

/-! ## Concrete inputs used by counterexamples and witnesses -/

/-- An RSDP image: valid `RSD PTR ` signature, revision 0, declared
length 20, byte sum over those 20 bytes not 0 mod 256. -/
def rsdpBadRev : List Nat :=
  [82, 83, 68, 32, 80, 84, 82, 32, 7, 0, 0, 0, 0, 0, 0, 0,
   0, 0, 0, 0, 20, 0, 0, 0, 0, 0, 0, 0, 0, 0, 0, 0, 0, 0, 0, 0]

/-- The same image with revision 2: signature valid, checksum bad. -/
def rsdpBadSum : List Nat :=
  [82, 83, 68, 32, 80, 84, 82, 32, 7, 0, 0, 0, 0, 0, 0, 2,
   0, 0, 0, 0, 20, 0, 0, 0, 0, 0, 0, 0, 0, 0, 0, 0, 0, 0, 0, 0]

/-- A MADT image with valid signature and checksum (declared length
46) whose single record has type 1 and length byte 0: the record walk
never advances. -/
def madtStuck : List Nat :=
  [65, 80, 73, 67, 46, 0, 0, 0, 1, 179, 0, 0, 0, 0, 0, 0,
   0, 0, 0, 0, 0, 0, 0, 0, 0, 0, 0, 0, 0, 0, 0, 0, 0, 0, 0, 0,
   0, 0, 0, 0, 0, 0, 0, 0, 1, 0]

/-- A MADT image with valid signature and checksum (declared length
52) holding one type-0 record `{uid 1, apic 2, flags 1}`; the flags
payload is stored little-endian as `01 00 00 00`, so the record body
contains zero bytes (only its length byte is nonzero). -/
def madtImage : List Nat :=
  [65, 80, 73, 67, 52, 0, 0, 0, 1, 162, 0, 0, 0, 0, 0, 0,
   0, 0, 0, 0, 0, 0, 0, 0, 0, 0, 0, 0, 0, 0, 0, 0, 0, 0, 0, 0,
   0, 0, 0, 0, 0, 0, 0, 0, 0, 8, 1, 2, 1, 0, 0, 0]

/-- A full `RangeSet`: 128 separated entries, as in the Rust test
`test_rangeset_remove_full_split`. -/
def fullSet : List Range := (List.range 128).map fun i => ⟨10 * i, 10 * i + 5⟩

/-- 124 wide, far-apart padding ranges. -/
def padRanges : List Range :=
  (List.range 124).map fun i => ⟨1000 + 100 * i, 1090 + 100 * i⟩

/-- A sequence of operations, every one returning `Ok`, that builds a
full 128-entry state holding the overlapping pair `[5,8], [7,20]`:
inserting `[5, u64::MAX]` next to `[7,20]` is not merged (the sweep
computes `u64::MAX + 1 = 0` by wrapping); splitting off `[6,10]` and
re-inserting `[6,8]` moves the overlap into a wrap-free entry; deleting
`[11, u64::MAX]` leaves the plain overlapping pair; two splitting
removes on padding entries fill the set to capacity. -/
def wrapStep0 : List Range × Option RangeError :=
  RangeSet.insertAll (padRanges ++ [⟨7, 20⟩, ⟨5, U64 - 1⟩])

def wrapStep1 : List Range × Option RangeError :=
  RangeSet.remove wrapStep0.1 ⟨6, 10⟩

def wrapStep2 : List Range × Option RangeError :=
  RangeSet.insert wrapStep1.1 ⟨6, 8⟩

def wrapStep3 : List Range × Option RangeError :=
  RangeSet.remove wrapStep2.1 ⟨11, U64 - 1⟩

def wrapStep4 : List Range × Option RangeError :=
  RangeSet.remove wrapStep3.1 ⟨1040, 1041⟩

def wrapStep5 : List Range × Option RangeError :=
  RangeSet.remove wrapStep4.1 ⟨1140, 1141⟩

/-- On that full state, removing `[8,15]` truncates `[5,8]` to `[5,7]`
and only then fails with `FullRangeSet` at the split of `[7,20]`. -/
def wrapFinal : List Range × Option RangeError :=
  RangeSet.remove wrapStep5.1 ⟨8, 15⟩

/-! ## Helper lemmas: `remove` -/

/-- An entry disjoint from the removal range is passed over untouched;
if no entry overlaps it, the whole loop is the identity. -/
theorem removeLoop_no_overlap (range : Range) (l : List Range)
    (h : ∀ x ∈ l, ¬ x.overlaps range) :
    ∀ pre, RangeSet.removeLoop range pre l = (l, none) := by
  induction l with
  | nil => intro pre; rfl
  | cons x xs ih =>
    intro pre
    rw [RangeSet.removeLoop]
    rcases Decidable.em (range.stop < x.start) with hlt | hlt
    · rw [if_pos hlt]
    · rw [if_neg hlt, if_pos (h x (by simp))]
      rw [ih (fun y hy => h y (by simp [hy])) (pre + 1)]

/-! ## Helper lemmas: ticket mutex -/

/-- Closed form of `n` sequential cycles: both counters hold
`n % 2 ^ 64`. -/
theorem cycles_eq (n : Nat) : cycles n = ⟨n % U64, n % U64⟩ := by
  induction n with
  | zero => rfl
  | succ n ih =>
    show ((cycles n).lock).2.unlock = _
    rw [ih]
    show (⟨(n % U64 + 1) % U64, (n % U64 + 1) % U64⟩ : TicketMutex) = _
    rw [Nat.mod_add_mod]

end Expos

/-! ## The claims -/

namespace Expos

/-- Claim C10: for every `RangeSet` state and every valid range `r`
that overlaps no entry of the set (in particular on the empty set),
`remove(r)` returns `Ok` and leaves the set exactly unchanged. -/
theorem C10_theorem (l : List Range) (r : Range) (_hr : r.wf)
    (h : ∀ x ∈ l, ¬ x.overlaps r) :
    RangeSet.remove l r = (l, none) :=
  removeLoop_no_overlap r l h 0

/-- Witness for C10 at a concrete two-entry set and a disjoint range. -/
theorem C10_witness :
    ((⟨0, 19⟩ : Range).wf ∧
      ∀ x ∈ [(⟨20, 30⟩ : Range), ⟨40, 50⟩], ¬ x.overlaps ⟨0, 19⟩) ∧
    RangeSet.remove [(⟨20, 30⟩ : Range), ⟨40, 50⟩] ⟨0, 19⟩ =
      ([(⟨20, 30⟩ : Range), ⟨40, 50⟩], none) :=
  ⟨⟨by decide, by decide⟩,
    C10_theorem [⟨20, 30⟩, ⟨40, 50⟩] ⟨0, 19⟩ (by decide) (by decide)⟩

/-- Claim C8: a sequence of `insert` and `remove` calls, all
returning `Ok`, after which two consecutive entries are mergeable
(`next.start <= end + 1` over the integers) yet left unmerged as two
entries: inserting `[7,9]` then `[5, u64::MAX]` leaves the pair
unmerged (the merge sweep computes `u64::MAX + 1 = 0` by wrapping),
and the subsequent `remove [6,6]` splits the first entry without any
re-merge sweep, leaving the consecutive mergeable pair
`[7, u64::MAX], [7, 9]`. -/
theorem C8_theorem :
    (RangeSet.insertAll [⟨7, 9⟩, ⟨5, U64 - 1⟩]).2 = none ∧
    RangeSet.remove (RangeSet.insertAll [⟨7, 9⟩, ⟨5, U64 - 1⟩]).1 ⟨6, 6⟩ =
      ([⟨5, 5⟩, ⟨7, U64 - 1⟩, ⟨7, 9⟩], none) ∧
    (7 : Nat) ≤ (U64 - 1) + 1 := by
  refine ⟨by decide, by decide, by decide⟩

/-- Claim C4 counterexample: an image whose signature is `RSD PTR `
and whose byte sum over the declared length (20) is not 0, but whose
revision byte is 0: validation returns `InvalidRevision`, not the
`InvalidChecksum` the claim requires regardless of revision. -/
theorem C4_counterexample :
    rsdpBadRev.take 8 = ACPI_RSDP_SIGNATURE ∧
    addBytes ((rsdpBadRev.take 36).take (rsdpLength rsdpBadRev)) ≠ 0 ∧
    Rsdp20.new rsdpBadRev = .error .InvalidRevision ∧
    UefiError.InvalidRevision ≠ UefiError.InvalidCheckSum :=
  ⟨by decide, by decide, rfl, by decide⟩

/-- Claim C4 (amended): `Rsdp20::new` checks the signature, then the
revision, then the checksum; for every image whose signature matches,
whose revision is at least 2, and whose byte sum over the declared
length is not zero mod 256, validation returns `InvalidChecksum`. -/
theorem C4_theorem (mem : List Nat)
    (hsig : mem.take 8 = ACPI_RSDP_SIGNATURE)
    (hrev : 2 ≤ rsdpRevision mem)
    (hsum : addBytes ((mem.take 36).take (rsdpLength mem)) ≠ 0) :
    Rsdp20.new mem = .error .InvalidCheckSum := by
  unfold Rsdp20.new
  rw [if_neg (by simp [hsig]), if_neg (by omega), if_pos hsum]

/-- Witness for C4 at a concrete image with revision 2. -/
theorem C4_witness :
    (rsdpBadSum.take 8 = ACPI_RSDP_SIGNATURE ∧ 2 ≤ rsdpRevision rsdpBadSum ∧
      addBytes ((rsdpBadSum.take 36).take (rsdpLength rsdpBadSum)) ≠ 0) ∧
    Rsdp20.new rsdpBadSum = .error .InvalidCheckSum :=
  ⟨⟨by decide, by decide, by decide⟩,
    C4_theorem rsdpBadSum (by decide) (by decide) (by decide)⟩

/-- Claim C6 counterexample: after `2 ^ 64` completed sequential
cycles both counters have wrapped back to 0, so they do not equal the
number of completed cycles as the claim requires for every `n`. -/
theorem C6_counterexample :
    (cycles (2 ^ 64)).next_ticket = 0 ∧ (cycles (2 ^ 64)).now_serving = 0 ∧
    (0 : Nat) ≠ 2 ^ 64 := by
  rw [cycles_eq]
  refine ⟨by simp [U64], by simp [U64], by decide⟩

/-- Claim C6 (amended): sequential cycles keep both counters at
`n % 2 ^ 64`; the ticket numbers increase by exactly one per
acquisition as long as they do not wrap (`n + 1 < 2 ^ 64`); each
guard drop increments `now_serving` by one modulo `2 ^ 64`; and after
any `n` cycles the next `lock` call is granted immediately (its
ticket equals `now_serving`). -/
theorem C6_theorem (n : Nat) :
    (cycles n).next_ticket = n % U64 ∧
    (cycles n).now_serving = n % U64 ∧
    (cycles n).granted ((cycles n).lock).1 ∧
    (n + 1 < U64 → (cycles (n + 1)).next_ticket = (cycles n).next_ticket + 1) := by
  refine ⟨by rw [cycles_eq], by rw [cycles_eq], ?_, ?_⟩
  · rw [cycles_eq]; exact rfl
  · intro h
    rw [cycles_eq, cycles_eq]
    show (n + 1) % U64 = n % U64 + 1
    rw [Nat.mod_eq_of_lt h, Nat.mod_eq_of_lt (by omega)]

/-- The error `match` agrees with the amended claim's named-table
reading for every code value: named kinds exactly on 1-35 minus the
gaps 29 and 30, `Unknown` of the full word everywhere else. -/
theorem fromCode_spec (c w : Nat) :
    StatusError.fromCode c w =
      if 1 ≤ c ∧ c ≤ 35 ∧ c ≠ 29 ∧ c ≠ 30 then namedErrorSpec c
      else .Unknown w := by
  by_cases hc : c ≤ 35
  · interval_cases c <;> rfl
  · rw [if_neg (show ¬(1 ≤ c ∧ c ≤ 35 ∧ c ≠ 29 ∧ c ≠ 30) by omega)]
    unfold StatusError.fromCode
    rw [if_neg (show ¬(c = 1) by omega)]
    rw [if_neg (show ¬(c = 2) by omega)]
    rw [if_neg (show ¬(c = 3) by omega)]
    rw [if_neg (show ¬(c = 4) by omega)]
    rw [if_neg (show ¬(c = 5) by omega)]
    rw [if_neg (show ¬(c = 6) by omega)]
    rw [if_neg (show ¬(c = 7) by omega)]
    rw [if_neg (show ¬(c = 8) by omega)]
    rw [if_neg (show ¬(c = 9) by omega)]
    rw [if_neg (show ¬(c = 10) by omega)]
    rw [if_neg (show ¬(c = 11) by omega)]
    rw [if_neg (show ¬(c = 12) by omega)]
    rw [if_neg (show ¬(c = 13) by omega)]
    rw [if_neg (show ¬(c = 14) by omega)]
    rw [if_neg (show ¬(c = 15) by omega)]
    rw [if_neg (show ¬(c = 16) by omega)]
    rw [if_neg (show ¬(c = 17) by omega)]
    rw [if_neg (show ¬(c = 18) by omega)]
    rw [if_neg (show ¬(c = 19) by omega)]
    rw [if_neg (show ¬(c = 20) by omega)]
    rw [if_neg (show ¬(c = 21) by omega)]
    rw [if_neg (show ¬(c = 22) by omega)]
    rw [if_neg (show ¬(c = 23) by omega)]
    rw [if_neg (show ¬(c = 24) by omega)]
    rw [if_neg (show ¬(c = 25) by omega)]
    rw [if_neg (show ¬(c = 26) by omega)]
    rw [if_neg (show ¬(c = 27) by omega)]
    rw [if_neg (show ¬(c = 28) by omega)]
    rw [if_neg (show ¬(c = 31) by omega)]
    rw [if_neg (show ¬(c = 32) by omega)]
    rw [if_neg (show ¬(c = 33) by omega)]
    rw [if_neg (show ¬(c = 34) by omega)]
    rw [if_neg (show ¬(c = 35) by omega)]

/-- The warning chain agrees with the named-table reading. -/
theorem warnChain_spec (w : Nat) (h0 : w ≠ 0) :
    (if w = 1 then StatusWarning.UnknownGlyph
     else if w = 2 then .DeleteFailure
     else if w = 3 then .WriteFailure
     else if w = 4 then .BufferTooSmall
     else if w = 5 then .StaleData
     else if w = 6 then .FileSystem
     else if w = 7 then .ResetRequired
     else .Unknown w) =
      (if 1 ≤ w ∧ w ≤ 7 then namedWarningSpec w else .Unknown w) := by
  by_cases h7 : w ≤ 7
  · have h1 : 1 ≤ w := Nat.one_le_iff_ne_zero.mpr h0
    interval_cases w <;> simp [namedWarningSpec]
  · split_ifs <;> first | rfl | (exfalso; omega)

/-- Claim C3 counterexample: at the word `2 ^ 63 + 29` (top bit set,
code 29) decoding yields `Error (Unknown w)` carrying the full word,
not `Unknown 29` (the word with the top bit cleared) as the claim
states. -/
theorem C3_counterexample :
    Status.fromEfi (2 ^ 63 + 29) =
      some (.Error (.Unknown (2 ^ 63 + 29))) ∧
    (2 ^ 63 + 29 : Nat) ≠ 29 :=
  ⟨by decide, by decide⟩

/-- Claim C3 (amended): decoding is exactly: 0 is Success; top bit
clear is Warning, named for codes 1-7, else `Unknown` of the full
word; top bit set is Error, named for codes 1-35 except the gaps 29
and 30 (code = word with the top bit cleared), else `Unknown` carrying
the full word with the top bit still set. -/
theorem C3_theorem (w : Nat) : Status.fromEfi w = some (statusDecodeSpec w) := by
  unfold Status.fromEfi statusDecodeSpec
  by_cases h0 : w = 0
  · simp [h0]
  · rw [if_neg h0, if_neg h0]
    by_cases hs : w >>> 63 = 0
    · rw [if_pos hs, if_pos hs]
      unfold StatusWarning.tryFromEfi
      rw [if_neg (by simp [h0, hs])]
      rw [warnChain_spec w h0]
      rfl
    · rw [if_neg hs, if_neg hs]
      unfold StatusError.tryFromEfi
      rw [if_neg (by simp [h0, hs])]
      rw [fromCode_spec]
      rfl

/-- Witness for C3 at the word `2 ^ 63 + 14` (Error NotFound). -/
theorem C3_witness :
    Status.fromEfi (2 ^ 63 + 14) = some (statusDecodeSpec (2 ^ 63 + 14)) :=
  C3_theorem (2 ^ 63 + 14)

/-- Claim C9: decoding never panics: for every machine word the
warning conversion succeeds exactly on nonzero words with the top bit
clear, the error conversion succeeds exactly on words with the top bit
set, and `Status::from` always produces a value, so its `unwrap`
calls are unreachable. -/
theorem C9_theorem (w : Nat) (hw : w < U64) :
    (Status.fromEfi w).isSome = true ∧
    ((StatusWarning.tryFromEfi w).isOk = true ↔ w ≠ 0 ∧ w >>> 63 = 0) ∧
    ((StatusError.tryFromEfi w).isOk = true ↔ w >>> 63 = 1) := by
  have hdiv : w >>> 63 = w / 2 ^ 63 := Nat.shiftRight_eq_div_pow w 63
  have hw2 : w < 2 ^ 64 := hw
  refine ⟨?_, ?_, ?_⟩
  · unfold Status.fromEfi
    by_cases h0 : w = 0
    · simp [h0]
    · rw [if_neg h0]
      by_cases hs : w >>> 63 = 0
      · rw [if_pos hs]
        unfold StatusWarning.tryFromEfi
        rw [if_neg (by simp [h0, hs])]
        rfl
      · rw [if_neg hs]
        unfold StatusError.tryFromEfi
        rw [if_neg (by simp [h0, hs])]
        rfl
  · unfold StatusWarning.tryFromEfi
    by_cases hg : w = 0 ∨ w >>> 63 = 1
    · rw [if_pos hg]
      simp only [Except.isOk]
      rw [hdiv] at hg ⊢
      constructor
      · intro h; exact absurd h (by decide)
      · intro h; exfalso; omega
    · rw [if_neg hg]
      simp only [Except.isOk]
      rw [hdiv] at hg ⊢
      constructor
      · intro _; constructor <;> omega
      · intro _; rfl
  · unfold StatusError.tryFromEfi
    by_cases hg : w = 0 ∨ w >>> 63 = 0
    · rw [if_pos hg]
      simp only [Except.isOk]
      rw [hdiv] at hg ⊢
      constructor
      · intro h; exact absurd h (by decide)
      · intro h; exfalso; omega
    · rw [if_neg hg]
      simp only [Except.isOk]
      rw [hdiv] at hg ⊢
      constructor
      · intro _; omega
      · intro _; rfl

/-- Witness for C9 at the word 4 (Warning BufferTooSmall). -/
theorem C9_witness :
    (4 < U64) ∧
    ((Status.fromEfi 4).isSome = true ∧
      ((StatusWarning.tryFromEfi 4).isOk = true ↔ (4 : Nat) ≠ 0 ∧ 4 >>> 63 = 0) ∧
      ((StatusError.tryFromEfi 4).isOk = true ↔ (4 : Nat) >>> 63 = 1)) :=
  ⟨by decide, C9_theorem 4 (by decide)⟩

/-- If every record the walk reaches inside the declared length has a
nonzero length byte, the walk reaches the declared length within one
iteration per byte: with `sdtLength mem <= fuel + off` the offsets
walk completes. -/
theorem madtOffsets_isSome (mem : List Nat)
    (hlen : ∀ o, recordStart mem o → o < sdtLength mem → 1 ≤ byteAt mem (o + 1)) :
    ∀ fuel off, recordStart mem off → sdtLength mem ≤ fuel + off →
      ∃ offs, madtOffsets mem (fuel + 1) off = some offs := by
  intro fuel
  induction fuel with
  | zero =>
    intro off _ hle
    refine ⟨[], ?_⟩
    unfold madtOffsets
    rw [if_neg (by omega)]
  | succ n ih =>
    intro off hrs hle
    by_cases hoff : off < sdtLength mem
    · obtain ⟨offs, hoffs⟩ :=
        ih (off + byteAt mem (off + 1)) (hrs.step hoff)
          (by have := hlen off hrs hoff; omega)
      refine ⟨off :: offs, ?_⟩
      show madtOffsets mem (n + 1 + 1) off = _
      unfold madtOffsets
      rw [if_pos hoff, hoffs]
      rfl
    · refine ⟨[], ?_⟩
      unfold madtOffsets
      rw [if_neg hoff]

/-- When the offsets walk completes, `madtWalk` completes with the
same fuel and returns exactly the type-0 records of the visited
offsets, in encounter order, unless more than `256 - acc.length` of
them appear, in which case it fails with `BufferTooSmall`. -/
theorem madtWalk_spec (mem : List Nat) :
    ∀ fuel off acc offs, madtOffsets mem fuel off = some offs →
      acc.length ≤ 256 →
      madtWalk mem fuel off acc = some (
        if 256 < acc.length + (offs.filter fun o => byteAt mem o == 0).length
        then .error .BufferTooSmall
        else .ok (acc ++ (offs.filter fun o => byteAt mem o == 0).map (lapicAt mem))) := by
  intro fuel
  induction fuel with
  | zero => intro off acc offs h; exact absurd h (by simp [madtOffsets])
  | succ n ih =>
    intro off acc offs hoffs hacc
    unfold madtOffsets at hoffs
    unfold madtWalk
    by_cases hoff : off < sdtLength mem
    · rw [if_pos hoff] at hoffs ⊢
      obtain ⟨offs2, hoffs2, rfl⟩ := Option.map_eq_some'.mp hoffs
      by_cases hty : byteAt mem off = 0
      · rw [if_pos hty]
        have hfil : (off :: offs2).filter (fun o => byteAt mem o == 0) =
            off :: offs2.filter (fun o => byteAt mem o == 0) := by
          simp [List.filter_cons, hty]
        rw [hfil]
        by_cases hcap : ACPI_MADT_ENTRIES_LEN ≤ acc.length
        · rw [if_pos hcap]
          have : 256 ≤ acc.length := hcap
          rw [if_pos (by simp; omega)]
        · rw [if_neg hcap]
          have hcap2 : acc.length < 256 := by
            have : ¬ (256 ≤ acc.length) := hcap
            omega
          rw [ih (off + byteAt mem (off + 1)) (acc ++ [lapicAt mem off]) offs2 hoffs2
            (by simp; omega)]
          simp only [List.length_append, List.length_cons, List.length_nil, List.map_cons]
          split_ifs <;> first | rfl | (exfalso; omega) | simp [List.append_assoc]
      · rw [if_neg hty]
        have hfil : (off :: offs2).filter (fun o => byteAt mem o == 0) =
            offs2.filter (fun o => byteAt mem o == 0) := by
          simp [List.filter_cons, hty]
        rw [hfil]
        exact ih (off + byteAt mem (off + 1)) acc offs2 hoffs2 hacc
    · rw [if_neg hoff] at hoffs ⊢
      obtain rfl : offs = [] := by simpa using hoffs.symm
      rw [if_neg (by simp; omega)]
      simp

/-- Claim C5 counterexample: a MADT image with valid signature and
checksum whose record area holds a type-1 record with length byte 0:
the walk never advances, so it does not finish within one iteration
per declared byte (nor, by `madtStuck_diverges`, within any number of
iterations), contradicting the claimed termination. -/
theorem C5_counterexample :
    madtStuck.take 4 = ACPI_MADT_SIGNATURE ∧
    addBytes (madtStuck.take (sdtLength madtStuck)) = 0 ∧
    Madt.new madtStuck = none :=
  ⟨by decide, by decide, rfl⟩

/-- The walk of `Madt::new` on `madtStuck` makes no progress for any
amount of fuel: the Rust loop runs forever. -/
theorem madtStuck_diverges : ∀ fuel acc, madtWalk madtStuck fuel 44 acc = none := by
  intro fuel
  induction fuel with
  | zero => intro acc; rfl
  | succ n ih =>
    intro acc
    unfold madtWalk
    rw [if_pos (by decide), if_neg (by decide)]
    have hb : 44 + byteAt madtStuck (44 + 1) = 44 := by decide
    rw [hb]
    exact ih acc

/-- Claim C5 (amended): for every MADT image whose signature and
checksum validate and in which every record the walk reaches inside
the declared length has a nonzero length byte, the walk terminates
within one iteration per declared byte, retains exactly the type-0
records in encounter order, and fails with `BufferTooSmall` when more
than 256 type-0 records are present. -/
theorem C5_theorem (mem : List Nat)
    (hsig : mem.take 4 = ACPI_MADT_SIGNATURE)
    (hsum : addBytes (mem.take (sdtLength mem)) = 0)
    (hlen : ∀ o, recordStart mem o → o < sdtLength mem → 1 ≤ byteAt mem (o + 1)) :
    ∃ offs, madtOffsets mem (madtFuel mem) 44 = some offs ∧
      Madt.new mem = some (
        if 256 < (offs.filter fun o => byteAt mem o == 0).length
        then .error .BufferTooSmall
        else .ok ((offs.filter fun o => byteAt mem o == 0).map (lapicAt mem))) := by
  obtain ⟨offs, hoffs⟩ :=
    madtOffsets_isSome mem hlen (sdtLength mem) 44 .base (by omega)
  refine ⟨offs, hoffs, ?_⟩
  unfold Madt.new
  rw [if_neg (by simp [hsig]), if_neg (by simp [hsum])]
  have hw := madtWalk_spec mem (madtFuel mem) 44 [] offs hoffs (by simp)
  simpa using hw

/-- The walk on the witness image visits only the offsets 44 and 52. -/
theorem madtImage_reach : ∀ o, recordStart madtImage o → o = 44 ∨ o = 52 := by
  intro o h
  induction h with
  | base => exact .inl rfl
  | step h1 h2 ih =>
    rcases ih with rfl | rfl
    · exact .inr (by decide)
    · exact absurd h2 (by decide)

/-- Witness for C5 at a concrete image with one type-0 record whose
payload contains zero bytes (little-endian flags `01 00 00 00`): only
the reachable record length bytes need to be nonzero. -/
theorem C5_witness :
    (madtImage.take 4 = ACPI_MADT_SIGNATURE ∧
      addBytes (madtImage.take (sdtLength madtImage)) = 0 ∧
      (∀ o, recordStart madtImage o → o < sdtLength madtImage →
        1 ≤ byteAt madtImage (o + 1)) ∧
      byteAt madtImage 49 = 0) ∧
    (∃ offs, madtOffsets madtImage (madtFuel madtImage) 44 = some offs ∧
      Madt.new madtImage = some (
        if 256 < (offs.filter fun o => byteAt madtImage o == 0).length
        then .error .BufferTooSmall
        else .ok ((offs.filter fun o => byteAt madtImage o == 0).map (lapicAt madtImage)))) :=
  ⟨⟨by decide, by decide,
    fun o h hlt => by
      rcases madtImage_reach o h with rfl | rfl
      · decide
      · exact absurd hlt (by decide),
    by decide⟩,
    C5_theorem madtImage (by decide) (by decide) (fun o h hlt => by
      rcases madtImage_reach o h with rfl | rfl
      · decide
      · exact absurd hlt (by decide))⟩

/-! ## Helper lemmas: order invariants of `RangeSet` -/

theorem wadd1_eq {n : Nat} (h : n + 1 < U64) : wadd1 n = n + 1 :=
  Nat.mod_eq_of_lt h

/-- In a strictly start-sorted list, the head's start is below every
later start. -/
theorem sortedStarts_head_lt {x : Range} {xs : List Range}
    (h : sortedStarts (x :: xs)) : ∀ y ∈ xs, x.start < y.start := by
  induction xs generalizing x with
  | nil => simp
  | cons y ys ih =>
    rw [sortedStarts, List.chain'_cons] at h
    intro z hz
    rcases List.mem_cons.mp hz with rfl | hz
    · exact h.1
    · exact Nat.lt_trans h.1 (ih h.2 z hz)

/-- In a gapped list of well-formed entries, the head's `end + 1` is
below every later start. -/
theorem gapped_head_lt {x : Range} {xs : List Range}
    (hwf : ∀ e ∈ xs, e.wf) (h : gapped (x :: xs)) :
    ∀ y ∈ xs, x.stop + 1 < y.start := by
  induction xs generalizing x with
  | nil => simp
  | cons y ys ih =>
    rw [gapped, List.chain'_cons] at h
    intro z hz
    rcases List.mem_cons.mp hz with rfl | hz
    · exact h.1
    · have hy : y.start ≤ y.stop := hwf y (by simp)
      have hz2 := ih (fun e he => hwf e (by simp [he])) h.2 z hz
      omega

/-- Gapped well-formed entries are strictly sorted by start. -/
theorem gapped_sortedStarts {l : List Range}
    (hwf : ∀ e ∈ l, e.wf) (h : gapped l) : sortedStarts l := by
  induction l with
  | nil => exact List.chain'_nil
  | cons x xs ih =>
    rw [gapped, List.chain'_cons'] at h
    rw [sortedStarts, List.chain'_cons']
    refine ⟨?_, ih (fun e he => hwf e (by simp [he])) h.2⟩
    intro y hy
    have hx : x.start ≤ x.stop := hwf x (by simp)
    have := h.1 y hy
    omega

/-! ## Helper lemmas: the merge sweep -/

/-- Facts about the absorption step of the merge sweep: the absorbed
entry keeps the left start, its end does not shrink, it stays well
formed and wrap free, and it covers whatever the dropped entry
covered. -/
theorem absorb_facts (x y : Range) (hlt : x.start < y.start)
    (hx : x.wf ∧ x.noWrap) (hy : y.wf ∧ y.noWrap)
    (hgap : ¬ wadd1 x.stop < y.start) :
    (if y.contains_point (wadd1 x.stop) then (⟨x.start, y.stop⟩ : Range) else x).start
        = x.start ∧
    x.stop ≤ (if y.contains_point (wadd1 x.stop) then (⟨x.start, y.stop⟩ : Range) else x).stop ∧
    (if y.contains_point (wadd1 x.stop) then (⟨x.start, y.stop⟩ : Range) else x).wf ∧
    (if y.contains_point (wadd1 x.stop) then (⟨x.start, y.stop⟩ : Range) else x).noWrap ∧
    (∀ r : Range, covers y r →
      covers (if y.contains_point (wadd1 x.stop) then (⟨x.start, y.stop⟩ : Range) else x) r) := by
  have hw : wadd1 x.stop = x.stop + 1 := wadd1_eq hx.2
  have hywf : y.start ≤ y.stop := hy.1
  split_ifs with hc
  · rw [hw] at hc
    obtain ⟨hc1, hc2⟩ := hc
    refine ⟨rfl, ?_, ?_, hy.2, ?_⟩
    · show x.stop ≤ y.stop
      omega
    · show x.start ≤ y.stop
      omega
    · intro r hcov
      obtain ⟨h1, h2⟩ := hcov
      refine ⟨show x.start ≤ r.start by omega, show r.stop ≤ y.stop by omega⟩
  · rw [hw] at hgap hc
    rw [Range.contains_point] at hc
    have hstop : y.stop ≤ x.stop := by omega
    refine ⟨rfl, le_refl _, hx.1, hx.2, ?_⟩
    intro r hcov
    obtain ⟨h1, h2⟩ := hcov
    exact ⟨by omega, by omega⟩

/-- The merge sweep on a start-sorted list of well-formed wrap-free
entries yields a gapped list of well-formed wrap-free entries whose
head keeps the first start and an end no smaller than before. -/
theorem mergeAux_spec :
    ∀ (ys : List Range) (x : Range), sortedStarts (x :: ys) →
      (∀ e ∈ x :: ys, e.wf ∧ e.noWrap) →
      ∃ t tl, RangeSet.mergeAux x ys = ⟨x.start, t⟩ :: tl ∧ x.stop ≤ t ∧
        gapped (⟨x.start, t⟩ :: tl) ∧
        (∀ e ∈ (⟨x.start, t⟩ : Range) :: tl, e.wf ∧ e.noWrap) := by
  intro ys
  induction ys with
  | nil =>
    intro x _ hok
    refine ⟨x.stop, [], rfl, le_refl _, List.chain'_singleton _, ?_⟩
    intro e he
    rw [List.mem_singleton] at he
    subst he
    exact hok x (by simp)
  | cons y rest ih =>
    intro x hs hok
    rw [sortedStarts, List.chain'_cons] at hs
    have hxok := hok x (by simp)
    have hyok := hok y (by simp)
    by_cases hgap : wadd1 x.stop < y.start
    · rw [RangeSet.mergeAux, if_pos hgap]
      obtain ⟨t, tl, heq, hle, hg, hok2⟩ :=
        ih y hs.2 (fun e he => hok e (by simp [he]))
      refine ⟨x.stop, ⟨y.start, t⟩ :: tl, by rw [heq], le_refl _, ?_, ?_⟩
      · rw [gapped, List.chain'_cons]
        constructor
        · show x.stop + 1 < y.start
          rw [wadd1_eq hxok.2] at hgap
          exact hgap
        · exact hg
      · intro e he
        rcases List.mem_cons.mp he with rfl | he
        · exact hxok
        · exact hok2 e he
    · rw [RangeSet.mergeAux, if_neg hgap]
      obtain ⟨habs1, habs2, habs3, habs4, _⟩ :=
        absorb_facts x y hs.1 hxok hyok hgap
      have hsort2 : sortedStarts
          ((if y.contains_point (wadd1 x.stop) then (⟨x.start, y.stop⟩ : Range) else x)
            :: rest) := by
        rw [sortedStarts, List.chain'_cons']
        obtain ⟨hyh, hyc⟩ := List.chain'_cons'.mp hs.2
        refine ⟨?_, hyc⟩
        intro z hz
        rw [habs1]
        exact Nat.lt_trans hs.1 (hyh z hz)
      obtain ⟨t, tl, heq, hle, hg, hok2⟩ := ih _ hsort2 (fun e he => by
        rcases List.mem_cons.mp he with rfl | he
        · exact ⟨habs3, habs4⟩
        · exact hok e (by simp [he]))
      rw [habs1] at heq hg hok2
      refine ⟨t, tl, heq, le_trans habs2 hle, hg, hok2⟩

/-- A gapped list of well-formed wrap-free entries is a fixed point of
the merge sweep. -/
theorem mergeAux_fix :
    ∀ (ys : List Range) (x : Range), gapped (x :: ys) →
      (∀ e ∈ x :: ys, e.wf ∧ e.noWrap) →
      RangeSet.mergeAux x ys = x :: ys := by
  intro ys
  induction ys with
  | nil => intro x _ _; rfl
  | cons y rest ih =>
    intro x hg hok
    rw [gapped, List.chain'_cons] at hg
    have hgap : wadd1 x.stop < y.start := by
      rw [wadd1_eq (hok x (by simp)).2]
      exact hg.1
    rw [RangeSet.mergeAux, if_pos hgap,
      ih y hg.2 (fun e he => hok e (by simp [he]))]

/-- The merge sweep preserves the presence of an entry covering `r`. -/
theorem mergeAux_cover (r : Range) :
    ∀ (ys : List Range) (x : Range), sortedStarts (x :: ys) →
      (∀ e ∈ x :: ys, e.wf ∧ e.noWrap) →
      (∃ z ∈ x :: ys, covers z r) →
      ∃ e ∈ RangeSet.mergeAux x ys, covers e r := by
  intro ys
  induction ys with
  | nil =>
    intro x _ _ hz
    obtain ⟨z, hz, hc⟩ := hz
    rw [List.mem_singleton] at hz
    subst hz
    exact ⟨z, by rw [RangeSet.mergeAux]; simp, hc⟩
  | cons y rest ih =>
    intro x hs hok hz
    obtain ⟨z, hz, hc⟩ := hz
    rw [sortedStarts, List.chain'_cons] at hs
    have hxok := hok x (by simp)
    have hyok := hok y (by simp)
    by_cases hgap : wadd1 x.stop < y.start
    · rw [RangeSet.mergeAux, if_pos hgap]
      rcases List.mem_cons.mp hz with rfl | hz2
      · exact ⟨z, by simp, hc⟩
      · obtain ⟨e, he, hec⟩ :=
          ih y hs.2 (fun e he => hok e (by simp [he])) ⟨z, hz2, hc⟩
        exact ⟨e, by simp [he], hec⟩
    · rw [RangeSet.mergeAux, if_neg hgap]
      obtain ⟨habs1, habs2, habs3, habs4, habs5⟩ :=
        absorb_facts x y hs.1 hxok hyok hgap
      have hsort2 : sortedStarts
          ((if y.contains_point (wadd1 x.stop) then (⟨x.start, y.stop⟩ : Range) else x)
            :: rest) := by
        rw [sortedStarts, List.chain'_cons']
        obtain ⟨hyh, hyc⟩ := List.chain'_cons'.mp hs.2
        refine ⟨?_, hyc⟩
        intro w hw
        rw [habs1]
        exact Nat.lt_trans hs.1 (hyh w hw)
      have hok2 : ∀ e ∈ (if y.contains_point (wadd1 x.stop)
          then (⟨x.start, y.stop⟩ : Range) else x) :: rest, e.wf ∧ e.noWrap := by
        intro e he
        rcases List.mem_cons.mp he with rfl | he
        · exact ⟨habs3, habs4⟩
        · exact hok e (by simp [he])
      obtain ⟨t, tl, heq, hle, _, _⟩ := mergeAux_spec rest _ hsort2 hok2
      rcases List.mem_cons.mp hz with hzx | hz2
      · -- the cover is x itself: the head of the merge keeps covering
        rw [hzx] at hc
        rw [heq]
        exact ⟨_, List.mem_cons_self _ _, habs1.trans_le hc.1,
          le_trans hc.2 (le_trans habs2 hle)⟩
      · rcases List.mem_cons.mp hz2 with hzy | hz3
        · -- the cover is the dropped entry: the absorbed head covers
          rw [hzy] at hc
          have hcov2 := habs5 r hc
          rw [heq]
          exact ⟨_, List.mem_cons_self _ _, hcov2.1, le_trans hcov2.2 hle⟩
        · exact ih _ hsort2 hok2 ⟨z, List.mem_cons_of_mem _ hz3, hc⟩

/-! ## Helper lemmas: `sort_insert` -/

/-- When the scan selects an insertion index (no same-start entry was
found), no entry of a start-sorted list shares the new start. -/
theorem scan_none_ne {l : List Range} {r : Range} (hs : sortedStarts l)
    (h : RangeSet.sort_insert_scan l r = none) :
    ∀ x ∈ l, x.start ≠ r.start := by
  induction l with
  | nil => simp
  | cons x xs ih =>
    rw [RangeSet.sort_insert_scan] at h
    by_cases h1 : r.start = x.start
    · rw [if_pos h1] at h
      exact absurd h (by simp)
    · rw [if_neg h1] at h
      by_cases h2 : r.start < x.start
      · intro y hy
        rcases List.mem_cons.mp hy with rfl | hy
        · omega
        · have := sortedStarts_head_lt hs y hy
          omega
      · rw [if_neg h2] at h
        have hxs := Option.map_eq_none'.mp h
        intro y hy
        rcases List.mem_cons.mp hy with rfl | hy
        · omega
        · exact ih ((List.chain'_cons'.mp hs).2) hxs y hy

/-- The same-start update produces an entry that covers the inserted
range. -/
theorem scan_some_cover {l l2 : List Range} {r : Range}
    (h : RangeSet.sort_insert_scan l r = some l2) :
    ∃ e ∈ l2, e.start = r.start ∧ covers e r := by
  induction l generalizing l2 with
  | nil => exact absurd h (by simp [RangeSet.sort_insert_scan])
  | cons x xs ih =>
    rw [RangeSet.sort_insert_scan] at h
    by_cases h1 : r.start = x.start
    · rw [if_pos h1] at h
      obtain rfl := (Option.some_inj.mp h).symm
      refine ⟨⟨x.start, max r.stop x.stop⟩, by simp, h1.symm, ?_, ?_⟩
      · show x.start ≤ r.start
        omega
      · show r.stop ≤ max r.stop x.stop
        exact le_max_left _ _
    · rw [if_neg h1] at h
      by_cases h2 : r.start < x.start
      · rw [if_pos h2] at h
        exact absurd h (by simp)
      · rw [if_neg h2] at h
        obtain ⟨l3, hl3, rfl⟩ := Option.map_eq_some'.mp h
        obtain ⟨e, he, hee⟩ := ih hl3
        exact ⟨e, by simp [he], hee⟩

/-- The same-start update keeps the list of start points. -/
theorem scan_map_start {l l2 : List Range} {r : Range}
    (h : RangeSet.sort_insert_scan l r = some l2) :
    l2.map Range.start = l.map Range.start := by
  induction l generalizing l2 with
  | nil => exact absurd h (by simp [RangeSet.sort_insert_scan])
  | cons x xs ih =>
    rw [RangeSet.sort_insert_scan] at h
    by_cases h1 : r.start = x.start
    · rw [if_pos h1] at h
      obtain rfl := (Option.some_inj.mp h).symm
      simp
    · rw [if_neg h1] at h
      by_cases h2 : r.start < x.start
      · rw [if_pos h2] at h
        exact absurd h (by simp)
      · rw [if_neg h2] at h
        obtain ⟨l3, hl3, rfl⟩ := Option.map_eq_some'.mp h
        simp [ih hl3]

/-- The same-start update keeps entries well formed and wrap free. -/
theorem scan_ok {l l2 : List Range} {r : Range}
    (hok : ∀ e ∈ l, e.wf ∧ e.noWrap) (hrw : r.wf) (hrn : r.noWrap)
    (h : RangeSet.sort_insert_scan l r = some l2) :
    ∀ e ∈ l2, e.wf ∧ e.noWrap := by
  induction l generalizing l2 with
  | nil => exact absurd h (by simp [RangeSet.sort_insert_scan])
  | cons x xs ih =>
    rw [RangeSet.sort_insert_scan] at h
    by_cases h1 : r.start = x.start
    · rw [if_pos h1] at h
      obtain rfl := (Option.some_inj.mp h).symm
      intro e he
      rcases List.mem_cons.mp he with rfl | he
      · have hxok := hok x (by simp)
        have hx1 : x.start ≤ x.stop := hxok.1
        have hx2 : x.stop + 1 < U64 := hxok.2
        have hr1 : r.start ≤ r.stop := hrw
        have hr2 : r.stop + 1 < U64 := hrn
        constructor
        · show x.start ≤ max r.stop x.stop
          omega
        · show max r.stop x.stop + 1 < U64
          omega
      · exact hok e (by simp [he])
    · rw [if_neg h1] at h
      by_cases h2 : r.start < x.start
      · rw [if_pos h2] at h
        exact absurd h (by simp)
      · rw [if_neg h2] at h
        obtain ⟨l3, hl3, rfl⟩ := Option.map_eq_some'.mp h
        intro e he
        rcases List.mem_cons.mp he with rfl | he
        · exact hok e (by simp)
        · exact ih (fun y hy => hok y (by simp [hy])) hl3 e he

/-- Strict start sortedness depends only on the start points. -/
theorem sortedStarts_of_map_start {l l2 : List Range}
    (h : l2.map Range.start = l.map Range.start) (hs : sortedStarts l) :
    sortedStarts l2 := by
  have h1 := (List.chain'_map Range.start).mpr hs
  rw [← h] at h1
  exact (List.chain'_map Range.start).mp h1

/-- Every entry of the placed list is the new range or an old entry. -/
theorem place_mem {l : List Range} {r : Range} :
    ∀ e ∈ RangeSet.sort_insert_place l r, e = r ∨ e ∈ l := by
  induction l with
  | nil => simp [RangeSet.sort_insert_place]
  | cons x xs ih =>
    rw [RangeSet.sort_insert_place]
    split_ifs with h1
    · intro e he
      rcases List.mem_cons.mp he with rfl | he
      · exact .inl rfl
      · exact .inr he
    · intro e he
      rcases List.mem_cons.mp he with rfl | he
      · exact .inr (by simp)
      · rcases ih e he with rfl | he2
        · exact .inl rfl
        · exact .inr (by simp [he2])

/-- The new range is a member of the placed list. -/
theorem place_self_mem {l : List Range} {r : Range} :
    r ∈ RangeSet.sort_insert_place l r := by
  induction l with
  | nil => simp [RangeSet.sort_insert_place]
  | cons x xs ih =>
    rw [RangeSet.sort_insert_place]
    split_ifs with h1
    · simp
    · exact List.mem_cons_of_mem _ ih

/-- Placing a range with a fresh start into a start-sorted list keeps
it start sorted; the head of the result is the new range or the old
head. -/
theorem place_sorted : ∀ (l : List Range) (r : Range), sortedStarts l →
    (∀ x ∈ l, x.start ≠ r.start) →
    sortedStarts (RangeSet.sort_insert_place l r) ∧
    (∀ y ∈ (RangeSet.sort_insert_place l r).head?, y = r ∨ y ∈ l.head?) := by
  intro l
  induction l with
  | nil =>
    intro r _ _
    refine ⟨List.chain'_singleton _, ?_⟩
    simp [RangeSet.sort_insert_place]
  | cons x xs ih =>
    intro r hs hne
    rw [RangeSet.sort_insert_place]
    by_cases h1 : r.start < x.start
    · rw [if_pos h1]
      constructor
      · rw [sortedStarts, List.chain'_cons]
        exact ⟨h1, hs⟩
      · simp
    · rw [if_neg h1]
      have hxr : x.start < r.start := by
        have := hne x (by simp)
        omega
      obtain ⟨hps, hph⟩ := ih r ((List.chain'_cons'.mp hs).2)
        (fun y hy => hne y (by simp [hy]))
      constructor
      · rw [sortedStarts, List.chain'_cons']
        refine ⟨?_, hps⟩
        intro y hy
        rcases hph y hy with rfl | hy2
        · exact hxr
        · exact (List.chain'_cons'.mp hs).1 y hy2
      · simp

/-- Case analysis on `sort_insert`. -/
theorem sort_insert_cases (l : List Range) (r : Range) :
    (∃ l2, RangeSet.sort_insert_scan l r = some l2 ∧
      RangeSet.sort_insert l r = (l2, none)) ∨
    (RangeSet.sort_insert_scan l r = none ∧ RANGE_SET_LEN ≤ l.length ∧
      RangeSet.sort_insert l r = (l, some .FullRangeSet)) ∨
    (RangeSet.sort_insert_scan l r = none ∧ l.length < RANGE_SET_LEN ∧
      RangeSet.sort_insert l r = (RangeSet.sort_insert_place l r, none)) := by
  unfold RangeSet.sort_insert
  cases hscan : RangeSet.sort_insert_scan l r with
  | some l2 => exact .inl ⟨l2, rfl, rfl⟩
  | none =>
    by_cases hlen : RANGE_SET_LEN ≤ l.length
    · exact .inr (.inl ⟨rfl, hlen, by rw [if_pos hlen]⟩)
    · exact .inr (.inr ⟨rfl, by omega, by rw [if_neg hlen]⟩)

/-- Reduction of `insert` once `sort_insert` is known. -/
theorem insert_eq_of_sort {l l2 : List Range} {r : Range}
    (h : RangeSet.sort_insert l r = (l2, none)) :
    RangeSet.insert l r = (RangeSet.merge l2, none) := by
  unfold RangeSet.insert
  rw [h]

/-- Reduction of `insert` on a `sort_insert` error. -/
theorem insert_eq_of_sort_err {l l2 : List Range} {r : Range} {e : RangeError}
    (h : RangeSet.sort_insert l r = (l2, some e)) :
    RangeSet.insert l r = (l2, some e) := by
  unfold RangeSet.insert
  rw [h]

/-- A successful `insert` on a gapped state of well-formed wrap-free
entries yields a gapped state of well-formed wrap-free entries holding
an entry that covers the inserted range. -/
theorem insert_inv (l : List Range) (r : Range)
    (hg : gapped l) (hok : allOk l) (hrw : r.wf) (hrn : r.noWrap)
    (h2 : (RangeSet.insert l r).2 = none) :
    gapped (RangeSet.insert l r).1 ∧ allOk (RangeSet.insert l r).1 ∧
    ∃ e ∈ (RangeSet.insert l r).1, covers e r := by
  have hwf : ∀ e ∈ l, e.wf := fun e he => (hok e he).1
  have hs : sortedStarts l := gapped_sortedStarts hwf hg
  rcases sort_insert_cases l r with ⟨l2, hscan, hsi⟩ | ⟨_, _, hsi⟩ | ⟨hscan, _, hsi⟩
  · -- same-start update, then merge
    rw [insert_eq_of_sort hsi]
    have hmap := scan_map_start hscan
    have hs2 : sortedStarts l2 := sortedStarts_of_map_start hmap hs
    have hok2 : ∀ e ∈ l2, e.wf ∧ e.noWrap := scan_ok hok hrw hrn hscan
    obtain ⟨e, he, _, hec⟩ := scan_some_cover hscan
    cases l2 with
    | nil => exact absurd he (by simp)
    | cons x2 xs2 =>
      obtain ⟨t, tl, heq, _, hgm, hokm⟩ := mergeAux_spec xs2 x2 hs2 hok2
      have hcov := mergeAux_cover r xs2 x2 hs2 hok2 ⟨e, he, hec⟩
      refine ⟨?_, ?_, hcov⟩
      · show gapped (RangeSet.mergeAux x2 xs2)
        rw [heq]
        exact hgm
      · show allOk (RangeSet.mergeAux x2 xs2)
        rw [allOk, heq]
        exact hokm
  · -- capacity error: contradicts success
    rw [insert_eq_of_sort_err hsi] at h2
    exact absurd h2 (by simp)
  · -- fresh insertion, then merge
    rw [insert_eq_of_sort hsi]
    have hne := scan_none_ne hs hscan
    obtain ⟨hps, _⟩ := place_sorted l r hs hne
    have hokp : ∀ e ∈ RangeSet.sort_insert_place l r, e.wf ∧ e.noWrap := by
      intro e he
      rcases place_mem e he with rfl | he2
      · exact ⟨hrw, hrn⟩
      · exact hok e he2
    have hrmem : r ∈ RangeSet.sort_insert_place l r := place_self_mem
    cases hp : RangeSet.sort_insert_place l r with
    | nil => rw [hp] at hrmem; exact absurd hrmem (by simp)
    | cons p ps =>
      rw [hp] at hps hokp hrmem
      obtain ⟨t, tl, heq, _, hgm, hokm⟩ := mergeAux_spec ps p hps hokp
      have hcov := mergeAux_cover r ps p hps hokp
        ⟨r, hrmem, le_refl _, le_refl _⟩
      refine ⟨?_, ?_, ?_⟩
      · show gapped (RangeSet.mergeAux p ps)
        rw [heq]
        exact hgm
      · show allOk (RangeSet.mergeAux p ps)
        rw [allOk, heq]
        exact hokm
      · show ∃ e ∈ RangeSet.mergeAux p ps, covers e r
        exact hcov

/-- A gapped list of well-formed wrap-free entries is a fixed point of
`merge`. -/
theorem merge_fix {l : List Range} (hg : gapped l) (hok : allOk l) :
    RangeSet.merge l = l := by
  cases l with
  | nil => rfl
  | cons x xs => exact mergeAux_fix xs x hg hok

/-- Running inserts from a gapped well-formed state keeps the state
gapped and well formed whenever every call succeeds. -/
theorem insertAllFrom_inv : ∀ (rs l : List Range),
    gapped l → allOk l → (∀ r ∈ rs, r.wf ∧ r.noWrap) →
    (RangeSet.insertAllFrom l rs).2 = none →
    gapped (RangeSet.insertAllFrom l rs).1 ∧
    allOk (RangeSet.insertAllFrom l rs).1 := by
  intro rs
  induction rs with
  | nil => intro l hg hok _ _; exact ⟨hg, hok⟩
  | cons r rs ih =>
    intro l hg hok hr h2
    rw [RangeSet.insertAllFrom] at h2 ⊢
    cases hins : RangeSet.insert l r with
    | mk l2 e2 =>
      cases e2 with
      | none =>
        rw [hins] at h2
        have hinv := insert_inv l r hg hok (hr r (by simp)).1 (hr r (by simp)).2
          (by rw [hins])
        rw [hins] at hinv
        exact ih l2 hinv.1 hinv.2.1 (fun y hy => hr y (by simp [hy])) h2
      | some e =>
        rw [hins] at h2
        exact Option.noConfusion h2

/-- Claim C1 counterexample: both inserted ranges are valid
(`start <= end`), both calls return `Ok`, yet the resulting entries
violate `end + 1 < next.start`: inserting `[7,9]` then
`[5, u64::MAX]` leaves `[5, u64::MAX], [7, 9]` because the merge
sweep computes `u64::MAX + 1 = 0` by wrapping and skips the pair. -/
theorem C1_counterexample :
    (∀ r ∈ [(⟨7, 9⟩ : Range), ⟨5, U64 - 1⟩], r.wf) ∧
    (RangeSet.insertAll [⟨7, 9⟩, ⟨5, U64 - 1⟩]).2 = none ∧
    (RangeSet.insertAll [⟨7, 9⟩, ⟨5, U64 - 1⟩]).1 = [⟨5, U64 - 1⟩, ⟨7, 9⟩] ∧
    ¬ gapped [(⟨5, U64 - 1⟩ : Range), ⟨7, 9⟩] := by
  refine ⟨by decide, by decide, by decide, ?_⟩
  intro hgap
  rw [gapped, List.chain'_cons] at hgap
  have h1 : (2 : Nat) ^ 64 - 1 + 1 < 7 := hgap.1
  omega

/-- Claim C1 (amended): for every sequence of `insert` calls with
valid ranges whose end points stay below `u64::MAX` (so `end + 1`
never wraps), starting from the empty set, if every call returns `Ok`
the resulting entries are strictly ascending by start and every
consecutive pair satisfies `end + 1 < next.start`. -/
theorem C1_theorem (rs : List Range)
    (h : ∀ r ∈ rs, r.wf ∧ r.noWrap)
    (hok : (RangeSet.insertAll rs).2 = none) :
    sortedStarts (RangeSet.insertAll rs).1 ∧
    gapped (RangeSet.insertAll rs).1 := by
  have hinv := insertAllFrom_inv rs [] List.chain'_nil
    (by intro y hy; exact absurd hy (by simp)) h hok
  exact ⟨gapped_sortedStarts (fun e he => (hinv.2 e he).1) hinv.1, hinv.1⟩

/-- Witness for C1 on the insert sequence of the Rust test
`test_rangeset_insert_not_overlapped`. -/
theorem C1_witness :
    ((∀ r ∈ [(⟨20, 30⟩ : Range), ⟨0, 10⟩, ⟨15, 15⟩], r.wf ∧ r.noWrap) ∧
      (RangeSet.insertAll [(⟨20, 30⟩ : Range), ⟨0, 10⟩, ⟨15, 15⟩]).2 = none) ∧
    sortedStarts (RangeSet.insertAll [(⟨20, 30⟩ : Range), ⟨0, 10⟩, ⟨15, 15⟩]).1 ∧
    gapped (RangeSet.insertAll [(⟨20, 30⟩ : Range), ⟨0, 10⟩, ⟨15, 15⟩]).1 :=
  ⟨⟨by decide, by decide⟩, C1_theorem _ (by decide) (by decide)⟩

/-! ## Helper lemmas: `remove` and capacity errors -/

/-- When every entry starts after the removal range's start, the
remove loop cannot fail (the split case needs an entry containing the
start). -/
theorem removeLoop_no_err {r : Range} : ∀ (l : List Range),
    (∀ x ∈ l, r.start < x.start) →
    ∀ pre, (RangeSet.removeLoop r pre l).2 = none := by
  intro l
  induction l with
  | nil => intro _ pre; rfl
  | cons x xs ih =>
    intro h pre
    have hx := h x (by simp)
    have htail : ∀ y ∈ xs, r.start < y.start := fun y hy => h y (by simp [hy])
    rw [RangeSet.removeLoop]
    by_cases hb : r.stop < x.start
    · rw [if_pos hb]
    · rw [if_neg hb]
      by_cases hov : x.overlaps r
      · rw [if_neg (not_not.mpr hov)]
        have hncr : ¬ x.contains_range r := by
          intro hc
          have := hc.1.1
          omega
        rw [if_neg hncr]
        by_cases hrc : r.contains_range x
        · rw [if_pos hrc]
          exact ih htail pre
        · rw [if_neg hrc]
          have hnps : ¬ x.contains_point r.start := by
            intro hc
            have := hc.1
            omega
          rw [if_neg hnps]
          exact ih htail (pre + 1)
      · rw [if_pos hov]
        exact ih htail (pre + 1)

/-- An erroring `remove` loop has made no change: on a well-formed
sorted disjoint state the only failing case is the split of the unique
entry strictly containing the removal range, and no entry before it
overlaps the removal range. -/
theorem removeLoop_err_unchanged {r : Range} (hrw : r.wf) :
    ∀ (l : List Range), (∀ x ∈ l, x.wf) → sortedDisjoint l →
    ∀ pre e, (RangeSet.removeLoop r pre l).2 = some e →
    (RangeSet.removeLoop r pre l).1 = l := by
  intro l
  induction l with
  | nil => intro _ _ pre e h; exact Option.noConfusion h
  | cons x xs ih =>
    intro hwf hd pre e h
    obtain ⟨hdh, hdt⟩ := List.pairwise_cons.mp hd
    have hxwf : x.start ≤ x.stop := hwf x (by simp)
    have hrwf : r.start ≤ r.stop := hrw
    rw [RangeSet.removeLoop] at h ⊢
    by_cases hb : r.stop < x.start
    · rw [if_pos hb] at h
      exact Option.noConfusion h
    · rw [if_neg hb] at h ⊢
      by_cases hov : x.overlaps r
      · rw [if_neg (not_not.mpr hov)] at h ⊢
        by_cases hcr : x.contains_range r
        · rw [if_pos hcr] at h ⊢
          by_cases hxr : x = r
          · rw [if_pos hxr] at h
            exact Option.noConfusion h
          · rw [if_neg hxr] at h ⊢
            by_cases hss : x.start = r.start
            · rw [if_pos hss] at h
              exact Option.noConfusion h
            · rw [if_neg hss] at h ⊢
              by_cases hee : x.stop = r.stop
              · rw [if_pos hee] at h
                exact Option.noConfusion h
              · rw [if_neg hee] at h ⊢
                by_cases hfull : RANGE_SET_LEN ≤ pre + (x :: xs).length
                · rw [if_pos hfull]
                · rw [if_neg hfull] at h ⊢
                  cases hnew : Range.new x.start (wsub1 r.start) with
                  | error e2 => rfl
                  | ok nr =>
                    rw [hnew] at h
                    exact Option.noConfusion h
        · rw [if_neg hcr] at h ⊢
          by_cases hrc : r.contains_range x
          · rw [if_pos hrc] at h ⊢
            have hnone := @removeLoop_no_err r xs (fun y hy => by
              have h1 := hdh y hy
              have h2 := hrc.1.1
              omega) pre
            rw [hnone] at h
            exact Option.noConfusion h
          · rw [if_neg hrc] at h ⊢
            by_cases hps : x.contains_point r.start
            · rw [if_pos hps] at h ⊢
              have hnone := @removeLoop_no_err r xs (fun y hy => by
                have h1 := hdh y hy
                have h2 := hps.2
                omega) (pre + 1)
              have h2 : (RangeSet.removeLoop r (pre + 1) xs).2 = some e := h
              rw [hnone] at h2
              exact Option.noConfusion h2
            · rw [if_neg hps] at h ⊢
              have hstop : r.start ≤ x.stop := by
                rcases hov with h1 | h2 | h3 | h4
                · exact absurd h1 hps
                · have := h2.2
                  omega
                · have := h3.1
                  omega
                · have := h4.1
                  omega
              have hnone := @removeLoop_no_err r xs (fun y hy => by
                have h1 := hdh y hy
                omega) (pre + 1)
              have h2 : (RangeSet.removeLoop r (pre + 1) xs).2 = some e := h
              rw [hnone] at h2
              exact Option.noConfusion h2
      · rw [if_pos hov] at h ⊢
        have h2 : (RangeSet.removeLoop r (pre + 1) xs).2 = some e := h
        have hres := ih (fun y hy => hwf y (by simp [hy])) hdt (pre + 1) e h2
        show x :: (RangeSet.removeLoop r (pre + 1) xs).1 = x :: xs
        rw [hres]

/-- An erroring `insert` has made no change, for every state: the
capacity check of `sort_insert` runs before any mutation. -/
theorem insert_err_unchanged (l : List Range) (r : Range) (e : RangeError)
    (h : (RangeSet.insert l r).2 = some e) : (RangeSet.insert l r).1 = l := by
  rcases sort_insert_cases l r with ⟨l2, _, hsi⟩ | ⟨_, _, hsi⟩ | ⟨_, _, hsi⟩
  · rw [insert_eq_of_sort hsi] at h
    exact Option.noConfusion h
  · rw [insert_eq_of_sort_err hsi]
  · rw [insert_eq_of_sort hsi] at h
    exact Option.noConfusion h

/-- On a gapped well-formed state holding a cover of `r`, a same-start
hit of the scan changes nothing: the covering entry is the entry with
`r`'s start, and the max-update keeps its end. -/
theorem scan_some_eq {r : Range} (hrw : r.wf) : ∀ (l l2 : List Range),
    gapped l → (∀ e ∈ l, e.wf) → (∃ e ∈ l, covers e r) →
    RangeSet.sort_insert_scan l r = some l2 → l2 = l := by
  intro l
  induction l with
  | nil =>
    intro l2 _ _ _ h
    exact absurd h (by simp [RangeSet.sort_insert_scan])
  | cons x xs ih =>
    intro l2 hg hwf hcov h
    rw [RangeSet.sort_insert_scan] at h
    obtain ⟨e, he, hec⟩ := hcov
    have hxwf : x.start ≤ x.stop := hwf x (by simp)
    have hrwf : r.start ≤ r.stop := hrw
    by_cases h1 : r.start = x.start
    · rw [if_pos h1] at h
      have hrs : r.stop ≤ x.stop := by
        rcases List.mem_cons.mp he with hex | hexs
        · have h3 := hec.2
          rw [hex] at h3
          exact h3
        · have h3 := gapped_head_lt (fun y hy => hwf y (by simp [hy])) hg e hexs
          have h4 := hec.1
          omega
      have hmax : max r.stop x.stop = x.stop := by omega
      obtain rfl := (Option.some_inj.mp h).symm
      rw [hmax]
    · rw [if_neg h1] at h
      by_cases h2 : r.start < x.start
      · rw [if_pos h2] at h
        exact absurd h (by simp)
      · rw [if_neg h2] at h
        obtain ⟨l3, hl3, rfl⟩ := Option.map_eq_some'.mp h
        have hl3eq : l3 = xs := by
          rcases List.mem_cons.mp he with hex | hexs
          · exfalso
            rw [hex] at hec
            cases xs with
            | nil => exact absurd hl3 (by simp [RangeSet.sort_insert_scan])
            | cons y ys =>
              have hy := gapped_head_lt (fun z hz => hwf z (by simp [hz])) hg y
                (by simp)
              have hc2 := hec.2
              rw [RangeSet.sort_insert_scan] at hl3
              rw [if_neg (by omega), if_pos (by omega)] at hl3
              exact Option.noConfusion hl3
          · exact ih l3 ((List.chain'_cons'.mp hg).2)
              (fun z hz => hwf z (by simp [hz])) ⟨e, hexs, hec⟩ hl3
        rw [hl3eq]

/-- Re-inserting a range already covered by an entry with a strictly
smaller start collapses under the merge sweep: the fresh entry is
placed right after its cover and dropped again. -/
theorem place_merge_collapse {r : Range} (hrw : r.wf) : ∀ (l : List Range),
    gapped l → allOk l → (∃ e ∈ l, covers e r ∧ e.start < r.start) →
    RangeSet.merge (RangeSet.sort_insert_place l r) = l := by
  intro l
  induction l with
  | nil =>
    intro _ _ h
    obtain ⟨e, he, _⟩ := h
    exact absurd he (by simp)
  | cons x xs ih =>
    intro hg hok hcov
    obtain ⟨e, he, hec, hel⟩ := hcov
    have hxok := hok x (by simp)
    have hwf : ∀ y ∈ x :: xs, y.wf := fun y hy => (hok y hy).1
    have hrwf : r.start ≤ r.stop := hrw
    have hxwf : x.start ≤ x.stop := hxok.1
    rcases List.mem_cons.mp he with hex | hexs
    · rw [hex] at hec hel
      rw [RangeSet.sort_insert_place, if_neg (by omega)]
      have hc2 : r.stop ≤ x.stop := hec.2
      have hngap : ¬ wadd1 x.stop < r.start := by
        rw [wadd1_eq hxok.2]
        omega
      have hncp : ¬ r.contains_point (wadd1 x.stop) := by
        rw [wadd1_eq hxok.2]
        intro hcp
        have := hcp.2
        omega
      cases xs with
      | nil =>
        show RangeSet.mergeAux x [r] = [x]
        rw [RangeSet.mergeAux, if_neg hngap, if_neg hncp]
        rfl
      | cons y ys =>
        have hy := gapped_head_lt (fun z hz => hwf z (by simp [hz])) hg y (by simp)
        rw [RangeSet.sort_insert_place, if_pos (by omega)]
        show RangeSet.mergeAux x (r :: y :: ys) = x :: y :: ys
        rw [RangeSet.mergeAux, if_neg hngap, if_neg hncp]
        exact mergeAux_fix (y :: ys) x hg hok
    · have hxlt : x.start < r.start := by
        have h1 := sortedStarts_head_lt (gapped_sortedStarts hwf hg) e hexs
        omega
      rw [RangeSet.sort_insert_place, if_neg (by omega)]
      cases xs with
      | nil => exact absurd hexs (by simp)
      | cons y ys =>
        have hylt : y.start < r.start := by
          rcases List.mem_cons.mp hexs with hey | heys
          · rw [← hey]
            exact hel
          · have := sortedStarts_head_lt
              (gapped_sortedStarts (fun z hz => hwf z (by simp [hz]))
                ((List.chain'_cons'.mp hg).2)) e heys
            omega
        have hgap : wadd1 x.stop < y.start := by
          rw [wadd1_eq hxok.2]
          exact (List.chain'_cons.mp hg).1
        have hih := ih ((List.chain'_cons'.mp hg).2)
          (fun z hz => hok z (by simp [hz])) ⟨e, hexs, hec, hel⟩
        rw [RangeSet.sort_insert_place, if_neg (by omega)] at hih
        rw [RangeSet.sort_insert_place, if_neg (by omega)]
        show RangeSet.mergeAux x (y :: RangeSet.sort_insert_place ys r) = x :: y :: ys
        rw [RangeSet.mergeAux, if_pos hgap]
        rw [RangeSet.merge] at hih
        rw [hih]

/-- Claim C7 counterexample: on the reachable state built by the
`Ok`-returning inserts of `[5,6]` and `[8, u64::MAX]`, inserting the
valid range `[6,7]` once yields `[5, u64::MAX]` (the merge sweep
absorbs both neighbours), but inserting it twice yields
`[5, u64::MAX], [6,7]`: the re-inserted entry survives because the
sweep computes `u64::MAX + 1 = 0` by wrapping.  `insert` is therefore
not idempotent as claimed. -/
theorem C7_counterexample :
    (RangeSet.insertAll [⟨5, 6⟩, ⟨8, U64 - 1⟩]).2 = none ∧
    (⟨6, 7⟩ : Range).wf ∧
    (RangeSet.insert (RangeSet.insertAll [⟨5, 6⟩, ⟨8, U64 - 1⟩]).1 ⟨6, 7⟩).1 =
      [⟨5, U64 - 1⟩] ∧
    (RangeSet.insert
      (RangeSet.insert (RangeSet.insertAll [⟨5, 6⟩, ⟨8, U64 - 1⟩]).1 ⟨6, 7⟩).1
      ⟨6, 7⟩).1 = [⟨5, U64 - 1⟩, ⟨6, 7⟩] ∧
    ([(⟨5, U64 - 1⟩ : Range), ⟨6, 7⟩] : List Range) ≠ [⟨5, U64 - 1⟩] :=
  ⟨by decide, by decide, by decide, by decide, by decide⟩

/-- Claim C7 (amended): on every gapped state of well-formed entries
with end points below `u64::MAX` (every state the API builds from
such inserts and removes), and for every valid range `r` with end
point below `u64::MAX`, inserting `r` twice in a row leaves exactly
the set that inserting it once leaves — also when a call fails with
the capacity error, in which case the failing call changes nothing. -/
theorem C7_theorem (l : List Range) (r : Range)
    (hg : gapped l) (hok : allOk l) (hrw : r.wf) (hrn : r.noWrap) :
    (RangeSet.insert (RangeSet.insert l r).1 r).1 = (RangeSet.insert l r).1 := by
  cases h2 : (RangeSet.insert l r).2 with
  | some e =>
    rw [insert_err_unchanged l r e h2]
    exact insert_err_unchanged l r e h2
  | none =>
    obtain ⟨hSg, hSok, e, heS, hec⟩ := insert_inv l r hg hok hrw hrn h2
    have hSwf : ∀ y ∈ (RangeSet.insert l r).1, y.wf := fun y hy => (hSok y hy).1
    have hSs : sortedStarts (RangeSet.insert l r).1 := gapped_sortedStarts hSwf hSg
    rcases sort_insert_cases (RangeSet.insert l r).1 r with
      ⟨l2, hscan, hsi⟩ | ⟨_, _, hsi⟩ | ⟨hscan, _, hsi⟩
    · rw [insert_eq_of_sort hsi]
      have hl2 : l2 = (RangeSet.insert l r).1 :=
        scan_some_eq hrw _ l2 hSg hSwf ⟨e, heS, hec⟩ hscan
      rw [hl2, merge_fix hSg hSok]
    · rw [insert_eq_of_sort_err hsi]
    · rw [insert_eq_of_sort hsi]
      have hne := scan_none_ne hSs hscan e heS
      have helt : e.start < r.start := by
        have := hec.1
        omega
      exact place_merge_collapse hrw _ hSg hSok ⟨e, heS, hec, helt⟩

/-- Witness for C7 on a concrete gapped state. -/
theorem C7_witness :
    (gapped [(⟨0, 10⟩ : Range), ⟨20, 30⟩] ∧
      allOk [(⟨0, 10⟩ : Range), ⟨20, 30⟩] ∧
      (⟨5, 7⟩ : Range).wf ∧ (⟨5, 7⟩ : Range).noWrap) ∧
    (RangeSet.insert
      (RangeSet.insert [(⟨0, 10⟩ : Range), ⟨20, 30⟩] ⟨5, 7⟩).1 ⟨5, 7⟩).1 =
      (RangeSet.insert [(⟨0, 10⟩ : Range), ⟨20, 30⟩] ⟨5, 7⟩).1 :=
  ⟨⟨by decide, by decide, by decide, by decide⟩,
    C7_theorem [⟨0, 10⟩, ⟨20, 30⟩] ⟨5, 7⟩ (by decide) (by decide) (by decide)
      (by decide)⟩

/-- Witness for C6 at `n = 3`. -/
theorem C6_witness :
    (3 + 1 < U64) ∧
    ((cycles 3).next_ticket = 3 % U64 ∧
      (cycles 3).now_serving = 3 % U64 ∧
      (cycles 3).granted ((cycles 3).lock).1 ∧
      (3 + 1 < U64 → (cycles (3 + 1)).next_ticket = (cycles 3).next_ticket + 1)) :=
  ⟨by decide, C6_theorem 3⟩

end Expos
